import Mathlib

/-!
Verification of the bioc-converter core pipeline: span normalization,
document assembly, section tracking, offset projection, section
assignment, and the resumable batch driver.  Each definition is a
shallow embedding of the corresponding Python function; texts are
modelled as lists of characters and machine integers as `Int`/`Nat`.
-/

namespace BiocConv

/-- An annotation span `(begin, end, label)` as consumed by
`remove_overlapping_spans` in `utils.py`.  Python ints are modelled
as `Int`. -/
structure Span where
  sBegin : Int
  sEnd : Int
  label : String
deriving DecidableEq, Repr

/-- Stable insertion by an integer key: `x` is placed after every
element whose key is strictly smaller, and before the first element
whose key is greater or equal.  This realises the stability guarantee
of Python's `sorted` (ties keep original order) when used from the
right end of the list. -/
def insertByKey {α : Type} (key : α → Int) (x : α) : List α → List α
  | [] => [x]
  | y :: ys => if key y < key x then y :: insertByKey key x ys else x :: y :: ys

/-- Stable sort by an integer key, modelling Python's `sorted(l, key=...)`. -/
def sortByKey {α : Type} (key : α → Int) (l : List α) : List α :=
  l.foldr (insertByKey key) []

theorem mem_insertByKey {α : Type} (key : α → Int) (x z : α) :
    ∀ l : List α, z ∈ insertByKey key x l ↔ z = x ∨ z ∈ l := by
  intro l
  induction l with
  | nil => simp [insertByKey]
  | cons y ys ih =>
    by_cases h : key y < key x
    · simp only [insertByKey, if_pos h, List.mem_cons, ih]
      tauto
    · simp only [insertByKey, if_neg h, List.mem_cons]

theorem mem_sortByKey {α : Type} (key : α → Int) (z : α) (l : List α) :
    z ∈ sortByKey key l ↔ z ∈ l := by
  induction l with
  | nil => simp [sortByKey]
  | cons y ys ih =>
    simp only [sortByKey, List.foldr_cons] at *
    rw [mem_insertByKey, ih, List.mem_cons]

theorem pairwise_insertByKey {α : Type} (key : α → Int) (x : α) (l : List α)
    (h : l.Pairwise (fun a b => key a ≤ key b)) :
    (insertByKey key x l).Pairwise (fun a b => key a ≤ key b) := by
  induction l with
  | nil => simp [insertByKey]
  | cons y ys ih =>
    rcases List.pairwise_cons.mp h with ⟨hy, hys⟩
    by_cases hlt : key y < key x
    · rw [insertByKey, if_pos hlt]
      refine List.pairwise_cons.mpr ⟨?_, ih hys⟩
      intro z hz
      rcases (mem_insertByKey key x z ys).mp hz with rfl | hz'
      · exact le_of_lt hlt
      · exact hy z hz'
    · rw [insertByKey, if_neg hlt]
      refine List.pairwise_cons.mpr ⟨?_, h⟩
      intro z hz
      rcases List.mem_cons.mp hz with rfl | hz'
      · exact le_of_not_lt hlt
      · exact le_trans (le_of_not_lt hlt) (hy z hz')

theorem pairwise_sortByKey {α : Type} (key : α → Int) (l : List α) :
    (sortByKey key l).Pairwise (fun a b => key a ≤ key b) := by
  induction l with
  | nil => simp [sortByKey]
  | cons y ys ih => exact pairwise_insertByKey key y _ ih

theorem insertByKey_ne_nil {α : Type} (key : α → Int) (x : α) (l : List α) :
    insertByKey key x l ≠ [] := by
  cases l with
  | nil => simp [insertByKey]
  | cons y ys =>
    rw [insertByKey]
    split <;> simp

/-- Sort key used by `remove_overlapping_spans`: the span's begin offset. -/
def spanKey (s : Span) : Int := s.sBegin

/-- Shallow embedding of `remove_overlapping_spans` (utils.py lines 75-102):
sort by begin (Python's `sorted` is stable), then scan, appending a span
to the accumulator only when the accumulator is empty or the span starts
at or after the end of the accumulator's last element. -/
def removeOverlappingSpans (spans : List Span) : List Span :=
  if spans = [] then []
  else
    (sortByKey spanKey spans).foldl
      (fun acc span =>
        match acc.getLast? with
        | none => acc ++ [span]
        | some prev => if prev.sEnd ≤ span.sBegin then acc ++ [span] else acc)
      []

/-- Greedy acceptance pass of the reference algorithm in the spec:
keep a span exactly when its begin is at or after the end of the last
accepted span. -/
def greedyKeep (last : Span) : List Span → List Span
  | [] => []
  | y :: ys => if last.sEnd ≤ y.sBegin then y :: greedyKeep y ys else greedyKeep last ys

/-- Reference Span Normalizer stated from the spec's words: stable-sort
ascending by begin, always accept the first span, then greedily accept
a span iff its begin is at or after the end of the last accepted span. -/
def specNormalize (spans : List Span) : List Span :=
  match sortByKey spanKey spans with
  | [] => []
  | x :: xs => x :: greedyKeep x xs

theorem foldl_overlap_eq_greedyKeep (l : List Span) :
    ∀ (acc : List Span) (x : Span), acc.getLast? = some x →
      l.foldl
        (fun acc span =>
          match acc.getLast? with
          | none => acc ++ [span]
          | some prev => if prev.sEnd ≤ span.sBegin then acc ++ [span] else acc)
        acc = acc ++ greedyKeep x l := by
  induction l with
  | nil => intro acc x _; simp [greedyKeep]
  | cons y ys ih =>
    intro acc x hx
    rw [List.foldl_cons, greedyKeep]
    simp only [hx]
    by_cases h : x.sEnd ≤ y.sBegin
    · rw [if_pos h, if_pos h]
      have hlast : (acc ++ [y]).getLast? = some y := by
        simp [List.getLast?_append]
      rw [ih (acc ++ [y]) y hlast, List.append_assoc]
      rfl
    · rw [if_neg h, if_neg h, ih acc x hx]

theorem removeOverlappingSpans_eq_spec (spans : List Span) :
    removeOverlappingSpans spans = specNormalize spans := by
  by_cases hnil : spans = []
  · subst hnil; rfl
  · rw [removeOverlappingSpans, if_neg hnil, specNormalize]
    cases hs : sortByKey spanKey spans with
    | nil =>
      exfalso
      cases spans with
      | nil => exact hnil rfl
      | cons a as =>
        exact insertByKey_ne_nil spanKey a (sortByKey spanKey as) hs
    | cons x xs =>
      rw [List.foldl_cons]
      have h0 : (([] : List Span).getLast?) = none := rfl
      simp only [h0]
      have hx : ([] ++ [x] : List Span).getLast? = some x := rfl
      rw [foldl_overlap_eq_greedyKeep xs ([] ++ [x]) x hx]
      simp

theorem mem_greedyKeep (z : Span) :
    ∀ (l : List Span) (last : Span), z ∈ greedyKeep last l → z ∈ l := by
  intro l
  induction l with
  | nil => intro last h; simp [greedyKeep] at h
  | cons y ys ih =>
    intro last h
    rw [greedyKeep] at h
    by_cases hc : last.sEnd ≤ y.sBegin
    · rw [if_pos hc] at h
      rcases List.mem_cons.mp h with rfl | h'
      · exact List.mem_cons_self _ _
      · exact List.mem_cons_of_mem _ (ih y h')
    · rw [if_neg hc] at h
      exact List.mem_cons_of_mem _ (ih last h)

theorem greedyKeep_sorted_spec :
    ∀ (l : List Span), l.Pairwise (fun a b => a.sBegin ≤ b.sBegin) →
      ∀ last : Span,
        (greedyKeep last l).Pairwise (fun a b => a.sEnd ≤ b.sBegin) ∧
        ∀ z ∈ greedyKeep last l, last.sEnd ≤ z.sBegin := by
  intro l
  induction l with
  | nil => intro _ last; constructor <;> simp [greedyKeep]
  | cons y ys ih =>
    intro hp last
    rcases List.pairwise_cons.mp hp with ⟨hy, hys⟩
    by_cases hc : last.sEnd ≤ y.sBegin
    · rw [greedyKeep, if_pos hc]
      rcases ih hys y with ⟨hpw, hbd⟩
      refine ⟨List.pairwise_cons.mpr ⟨hbd, hpw⟩, ?_⟩
      intro z hz
      rcases List.mem_cons.mp hz with rfl | hz'
      · exact hc
      · exact le_trans hc (hy z (mem_greedyKeep z ys y hz'))
    · rw [greedyKeep, if_neg hc]
      rcases ih hys last with ⟨hpw, hbd⟩
      exact ⟨hpw, hbd⟩

/-- C6: the Span Normalizer equals the reference algorithm (stable sort
by begin, then greedy first-wins acceptance), and on the spec's
Scenario 2 input `[(0,10,A),(5,15,B),(20,30,C)]` it returns
`[(0,10,A),(20,30,C)]`. -/
theorem span_normalizer_matches_reference :
    (∀ spans : List Span, removeOverlappingSpans spans = specNormalize spans) ∧
    removeOverlappingSpans [⟨0, 10, "A"⟩, ⟨5, 15, "B"⟩, ⟨20, 30, "C"⟩] =
      [⟨0, 10, "A"⟩, ⟨20, 30, "C"⟩] := by
  constructor
  · exact removeOverlappingSpans_eq_spec
  · decide

/-- C7: for every input span list, including degenerate spans, the
output of the Span Normalizer is pairwise non-overlapping: for all
`i < j` in the result, `result[i].end <= result[j].begin`. -/
theorem span_normalizer_nonoverlap (spans : List Span) :
    (removeOverlappingSpans spans).Pairwise (fun a b => a.sEnd ≤ b.sBegin) := by
  rw [removeOverlappingSpans_eq_spec, specNormalize]
  cases hs : sortByKey spanKey spans with
  | nil => simp
  | cons x xs =>
    have hp : (x :: xs).Pairwise (fun a b => a.sBegin ≤ b.sBegin) := by
      have := pairwise_sortByKey spanKey spans
      rw [hs] at this
      exact this
    rcases List.pairwise_cons.mp hp with ⟨_, hxs⟩
    rcases greedyKeep_sorted_spec xs hxs x with ⟨hpw, hbd⟩
    exact List.pairwise_cons.mpr ⟨hbd, hpw⟩

/-- Python slice `l[s:e]` for non-negative indices: drop `s`, then take
`e - s` (empty when `e <= s`). -/
def listSlice (l : List Char) (s e : Nat) : List Char :=
  (l.drop s).take (e - s)

/-- A sentence span as produced by the external sentence service
(spaCy `sent`): its text plus `start_char`/`end_char` offsets into the
text that was segmented. -/
structure SentSpanM where
  text : List Char
  startChar : Int
  endChar : Int
deriving DecidableEq, Repr

/-- A projected, sentence-relative annotation as built by
`create_sentence_annotations` (sentence.py lines 110-129): relative
begin/end from `max(0, ...)` / `min(len(sent.text), ...)`, the label,
and the optional text slice. -/
structure ProjAnn where
  aBegin : Int
  aEnd : Int
  label : String
  textSlice : Option (List Char)
deriving DecidableEq, Repr

/-- Shallow embedding of the per-(annotation, sentence) body of
`create_sentence_annotations`: overlap test on half-open intervals,
then clamped projection into sentence-relative coordinates. -/
def projectSpan (sentText : List Char) (sentStart sentEnd : Int) (sp : Span) :
    Option ProjAnn :=
  if sp.sBegin < sentEnd ∧ sentStart < sp.sEnd then
    let relStart : Int := max 0 (sp.sBegin - sentStart)
    let relEnd : Int := min (sentText.length : Int) (sp.sEnd - sentStart)
    some ⟨relStart, relEnd, sp.label,
      if relStart < (sentText.length : Int) then
        some (listSlice sentText relStart.toNat relEnd.toNat)
      else none⟩
  else none

/-- A sentence together with its projected annotations, mirroring
`SentenceAnnotation` from models.py. -/
structure SentenceAnnM where
  text : List Char
  annotations : List ProjAnn
  sentenceId : String
  absStart : Int
  absEnd : Int
deriving DecidableEq, Repr

/-- Shallow embedding of `create_sentence_annotations` (sentence.py
lines 78-141), with the external sentence service's output passed in as
`sents`: normalize the annotation spans with the Span Normalizer, then
project every surviving span into each sentence it overlaps. -/
def create_sentence_annotations (sents : List SentSpanM) (anns : List Span) :
    List SentenceAnnM :=
  let entitySpans := removeOverlappingSpans anns
  sents.enum.map (fun p =>
    ⟨p.2.text, entitySpans.filterMap (projectSpan p.2.text p.2.startChar p.2.endChar),
     "sentence_" ++ toString p.1, p.2.startChar, p.2.endChar⟩)

/-- A BioC annotation location (`offset`, `length`), as read by
`process_passage_to_sentences`. -/
structure BiocLoc where
  off : Int
  len : Int
deriving DecidableEq, Repr

/-- A BioC passage annotation: its locations, the label resolved from
its infons, and its surface text. -/
structure BiocAnn where
  locations : List BiocLoc
  annType : String
  text : Option (List Char)
deriving DecidableEq, Repr

/-- A sentence-relative annotation dict produced by
`process_passage_to_sentences` (sections.py lines 153-160). -/
structure PassSentAnn where
  aBegin : Int
  aEnd : Int
  label : String
  text : Option (List Char)
deriving DecidableEq, Repr

/-- A processed sentence dict produced by `process_passage_to_sentences`
(sections.py lines 163-170). -/
structure PassSent where
  text : List Char
  absStart : Int
  absEnd : Int
  annotations : List PassSentAnn
deriving DecidableEq, Repr

/-- Shallow embedding of `process_passage_to_sentences` (sections.py
lines 85-172), with the sentence boundaries produced by the external
service over the passage text passed in as `sents`.  Only an
annotation's first location is consulted, and the whole function
returns `[]` for empty or all-whitespace passage text. -/
def process_passage_to_sentences (passageText : List Char)
    (passageAnns : List BiocAnn) (passageOffset : Int)
    (sents : List SentSpanM) : List PassSent :=
  if passageText.all (fun c => c.isWhitespace) then []
  else
    sents.map (fun s =>
      let absStart := passageOffset + s.startChar
      let absEnd := passageOffset + s.endChar
      ⟨s.text, absStart, absEnd,
        passageAnns.filterMap (fun ann =>
          match ann.locations with
          | [] => none
          | loc :: _ =>
            let annAbsStart := loc.off
            let annAbsEnd := loc.off + loc.len
            if annAbsStart < absEnd ∧ absStart < annAbsEnd then
              some ⟨max 0 (annAbsStart - absStart),
                    min (s.text.length : Int) (annAbsEnd - absStart),
                    ann.annType, ann.text⟩
            else none)⟩)

/-- C1 counterexample: a degenerate annotation span `(begin=5, end=3)`
passes the overlap test against the sentence `[0,10)` and is projected
to `rel_begin = 5 > rel_end = 3`, violating
`0 <= rel_begin <= rel_end <= len(sentence.text)`. -/
theorem projection_containment_cex :
    (create_sentence_annotations [⟨List.replicate 10 'x', 0, 10⟩]
        [⟨5, 3, "X"⟩]).map (fun sa => sa.annotations.map (fun a => (a.aBegin, a.aEnd)))
      = [[(5, 3)]] ∧
    ¬ ((5 : Int) ≤ 3) := by
  constructor
  · rfl
  · decide

theorem projectSpan_bounds (sentText : List Char) (sentStart sentEnd : Int)
    (sp : Span) (a : ProjAnn)
    (hlen : sentEnd - sentStart = (sentText.length : Int))
    (hp : projectSpan sentText sentStart sentEnd sp = some a) :
    0 ≤ a.aBegin ∧ a.aBegin ≤ (sentText.length : Int) ∧
    0 ≤ a.aEnd ∧ a.aEnd ≤ (sentText.length : Int) ∧
    (sp.sBegin ≤ sp.sEnd → a.aBegin ≤ a.aEnd) := by
  rw [projectSpan] at hp
  by_cases hov : sp.sBegin < sentEnd ∧ sentStart < sp.sEnd
  · rw [if_pos hov] at hp
    have ha : a.aBegin = max 0 (sp.sBegin - sentStart) ∧
        a.aEnd = min (sentText.length : Int) (sp.sEnd - sentStart) := by
      cases hp
      exact ⟨rfl, rfl⟩
    rcases ha with ⟨hb, he⟩
    rcases hov with ⟨hov1, hov2⟩
    refine ⟨?_, ?_, ?_, ?_, ?_⟩
    · rw [hb]; exact le_max_left _ _
    · rw [hb]; apply max_le
      · exact Int.ofNat_nonneg _
      · omega
    · rw [he]; apply le_min
      · exact Int.ofNat_nonneg _
      · omega
    · rw [he]; exact min_le_left _ _
    · intro hnd; rw [hb, he]; apply max_le
      · apply le_min
        · exact Int.ofNat_nonneg _
        · omega
      · apply le_min
        · omega
        · omega
  · rw [if_neg hov] at hp
    exact absurd hp (Option.some_ne_none a).symm

theorem mem_removeOverlappingSpans (z : Span) (spans : List Span)
    (hz : z ∈ removeOverlappingSpans spans) : z ∈ spans := by
  rw [removeOverlappingSpans_eq_spec, specNormalize] at hz
  cases hs : sortByKey spanKey spans with
  | nil => rw [hs] at hz; simp at hz
  | cons x xs =>
    rw [hs] at hz
    have : z ∈ sortByKey spanKey spans := by
      rw [hs]
      rcases List.mem_cons.mp hz with rfl | hz'
      · exact List.mem_cons_self _ _
      · exact List.mem_cons_of_mem _ (mem_greedyKeep z xs x hz')
    exact (mem_sortByKey spanKey z spans).mp this

/-- C1 amended: for both projection functions, every produced
sentence-relative annotation satisfies
`0 <= rel_begin <= len(sentence.text)` and
`0 <= rel_end <= len(sentence.text)` whenever the sentence span is
consistent with its text length; moreover each produced annotation is
the projection of an identified source span (resp. source location) of
the input, and `rel_begin <= rel_end` additionally holds whenever that
source span itself is non-degenerate (`begin <= end`), regardless of
any other, possibly degenerate, spans in the same input; for a
degenerate source span with `begin > end` the middle inequality can
fail (see the counterexample). -/
theorem projection_containment_amended :
    (∀ (sents : List SentSpanM) (anns : List Span),
      (∀ s ∈ sents, s.endChar - s.startChar = (s.text.length : Int)) →
      ∀ sa ∈ create_sentence_annotations sents anns, ∀ a ∈ sa.annotations,
        0 ≤ a.aBegin ∧ a.aBegin ≤ (sa.text.length : Int) ∧
        0 ≤ a.aEnd ∧ a.aEnd ≤ (sa.text.length : Int) ∧
        ∃ sp, sp ∈ anns ∧ sp ∈ removeOverlappingSpans anns ∧
          projectSpan sa.text sa.absStart sa.absEnd sp = some a ∧
          (sp.sBegin ≤ sp.sEnd → a.aBegin ≤ a.aEnd)) ∧
    (∀ (passageText : List Char) (passageAnns : List BiocAnn)
        (passageOffset : Int) (sents : List SentSpanM),
      (∀ s ∈ sents, s.endChar - s.startChar = (s.text.length : Int)) →
      ∀ ps ∈ process_passage_to_sentences passageText passageAnns passageOffset
          sents, ∀ a ∈ ps.annotations,
        0 ≤ a.aBegin ∧ a.aBegin ≤ (ps.text.length : Int) ∧
        0 ≤ a.aEnd ∧ a.aEnd ≤ (ps.text.length : Int) ∧
        ∃ ann, ann ∈ passageAnns ∧ ∃ loc rest, ann.locations = loc :: rest ∧
          a.aBegin = max 0 (loc.off - ps.absStart) ∧
          a.aEnd = min ((ps.text.length : Int)) (loc.off + loc.len - ps.absStart) ∧
          (0 ≤ loc.len → a.aBegin ≤ a.aEnd)) := by
  constructor
  · intro sents anns hlen sa hsa a ha
    rw [create_sentence_annotations, List.mem_map] at hsa
    rcases hsa with ⟨p, hp, rfl⟩
    simp only [List.mem_filterMap] at ha
    rcases ha with ⟨sp, hsp, hproj⟩
    have hs : p.2 ∈ sents := by
      have hg := List.mem_enum_iff_getElem?.mp hp
      exact List.getElem?_mem hg
    have hb := projectSpan_bounds p.2.text p.2.startChar p.2.endChar sp a
      (hlen p.2 hs) hproj
    exact ⟨hb.1, hb.2.1, hb.2.2.1, hb.2.2.2.1, sp,
      mem_removeOverlappingSpans sp anns hsp, hsp, hproj, hb.2.2.2.2⟩
  · intro passageText passageAnns passageOffset sents hlen ps hps a ha
    rw [process_passage_to_sentences] at hps
    by_cases hw : passageText.all (fun c => c.isWhitespace)
    · rw [if_pos hw] at hps; simp at hps
    · rw [if_neg hw, List.mem_map] at hps
      rcases hps with ⟨s, hs, rfl⟩
      dsimp only at ha ⊢
      simp only [List.mem_filterMap] at ha
      rcases ha with ⟨ann, hann, hproj⟩
      cases hloc : ann.locations with
      | nil => rw [hloc] at hproj; exact absurd hproj (by simp)
      | cons loc rest =>
        rw [hloc] at hproj
        dsimp only at hproj
        by_cases hov : loc.off < passageOffset + s.endChar ∧
            passageOffset + s.startChar < loc.off + loc.len
        · rw [if_pos hov] at hproj
          have ha2 : a.aBegin = max 0 (loc.off - (passageOffset + s.startChar)) ∧
              a.aEnd = min (s.text.length : Int)
                (loc.off + loc.len - (passageOffset + s.startChar)) := by
            cases hproj
            exact ⟨rfl, rfl⟩
          rcases ha2 with ⟨hb, he⟩
          have hL := hlen s hs
          rcases hov with ⟨hov1, hov2⟩
          refine ⟨?_, ?_, ?_, ?_, ann, hann, loc, rest, hloc, hb, he, ?_⟩
          · rw [hb]; exact le_max_left _ _
          · rw [hb]; apply max_le
            · exact Int.ofNat_nonneg _
            · omega
          · rw [he]; apply le_min
            · exact Int.ofNat_nonneg _
            · omega
          · rw [he]; exact min_le_left _ _
          · intro hl0
            rw [hb, he]
            apply max_le
            · apply le_min
              · exact Int.ofNat_nonneg _
              · omega
            · apply le_min
              · omega
              · omega
        · rw [if_neg hov] at hproj
          exact absurd hproj (by simp)

/-- C1 amended witness: the containment bounds instantiated on a mixed
input containing both a degenerate span `(5,3)` and a non-degenerate
span `(0,1)` — the non-degenerate annotation's projection satisfies
`rel_begin <= rel_end` even though another input span is degenerate. -/
theorem projection_containment_amended_witness :
    0 ≤ (0 : Int) ∧
    (0 : Int) ≤ ((List.replicate 10 'x').length : Int) ∧
    0 ≤ (1 : Int) ∧
    (1 : Int) ≤ ((List.replicate 10 'x').length : Int) ∧
    (0 : Int) ≤ (1 : Int) := by
  have h := projection_containment_amended.1
    [⟨List.replicate 10 'x', 0, 10⟩] [⟨5, 3, "X"⟩, ⟨0, 1, "G"⟩]
    (by intro s hs; fin_cases hs; rfl)
    ⟨List.replicate 10 'x',
      [⟨0, 1, "G", some ['x']⟩, ⟨5, 3, "X", some []⟩], "sentence_0", 0, 10⟩
    (by decide) ⟨0, 1, "G", some ['x']⟩ (by decide)
  refine ⟨h.1, h.2.1, h.2.2.1, h.2.2.2.1, ?_⟩
  rcases h.2.2.2.2 with ⟨sp, hmem, _, hproj, himp⟩
  rcases List.mem_cons.mp hmem with rfl | hmem2
  · exact absurd hproj (by decide)
  · rcases List.mem_cons.mp hmem2 with rfl | hmem3
    · exact himp (by decide)
    · exact absurd hmem3 (by simp)

/-- A section info record as consumed by
`group_sentence_annotations_by_section` (metadata.py): a dict that may
lack any of the keys `section_type`, `start`, `end`. -/
structure SecInfo where
  sectionType : Option String
  start : Option Int
  stop : Option Int
deriving DecidableEq, Repr

/-- Python's `section.get("section_type") or "UNLABELED"`: a missing or
empty label is replaced by the `"UNLABELED"` sentinel. -/
def labelOrUnlabeled (st : Option String) : String :=
  match st with
  | none => "UNLABELED"
  | some s => if s = "" then "UNLABELED" else s

/-- Shallow embedding of `find_section_for_offset` (metadata.py lines
107-115): scan the ordered ranges, skip records with a missing bound,
and return the first containing range's label (or `"UNLABELED"`). -/
def findSectionForOffset : List SecInfo → Int → String
  | [], _ => "UNLABELED"
  | s :: rest, off =>
    match s.start, s.stop with
    | some a, some b =>
      if a ≤ off ∧ off < b then labelOrUnlabeled s.sectionType
      else findSectionForOffset rest off
    | _, _ => findSectionForOffset rest off

/-- Sort key used on section records: `section.get("start", 0)`. -/
def secKey (s : SecInfo) : Int := s.start.getD 0

/-- Boolean containment test used to characterise the first match of
`find_section_for_offset`. -/
def secContains (off : Int) (s : SecInfo) : Bool :=
  match s.start, s.stop with
  | some a, some b => decide (a ≤ off ∧ off < b)
  | _, _ => false

/-- Shallow embedding of the per-sentence body of
`group_sentence_annotations_by_section` (metadata.py lines 117-134):
sort the ranges by start, test the sentence's start, then — whenever the
result is the `"UNLABELED"` sentinel — fall back to the midpoint
(Python floor division) and finally to `end - 1`. -/
def assignSectionName (sections : List SecInfo) (absStart absEnd : Int) : String :=
  let sorted := sortByKey secKey sections
  let n1 := findSectionForOffset sorted absStart
  let n2 :=
    if n1 = "UNLABELED" then findSectionForOffset sorted (Int.fdiv (absStart + absEnd) 2)
    else n1
  if n2 = "UNLABELED" ∧ absStart < absEnd then findSectionForOffset sorted (absEnd - 1)
  else n2

theorem findSectionForOffset_eq_find (off : Int) :
    ∀ l : List SecInfo,
      findSectionForOffset l off =
        match l.find? (secContains off) with
        | some r => labelOrUnlabeled r.sectionType
        | none => "UNLABELED" := by
  intro l
  induction l with
  | nil => rfl
  | cons s rest ih =>
    rw [findSectionForOffset, List.find?]
    cases hst : s.start with
    | none =>
      have hc : secContains off s = false := by rw [secContains, hst]
      rw [hc, ih]
    | some a =>
      cases hen : s.stop with
      | none =>
        have hc : secContains off s = false := by rw [secContains, hst, hen]
        rw [hc, ih]
      | some b =>
        by_cases hin : a ≤ off ∧ off < b
        · have hc : secContains off s = true := by
            rw [secContains, hst, hen]; exact decide_eq_true hin
          rw [hc]; dsimp only; rw [if_pos hin]
        · have hc : secContains off s = false := by
            rw [secContains, hst, hen]; exact decide_eq_false hin
          rw [hc]; dsimp only; rw [if_neg hin, ih]

/-- C2 counterexample: with ranges `[UNLABELED: 0..10, TITLE: 10..20]`
and a sentence with `abs_start = 5`, `abs_end = 25`, the first range in
order contains `abs_start` and its label is `"UNLABELED"`, yet the
assigner consults the midpoint fallback and returns `"TITLE"` instead of
that first match's label. -/
theorem section_assigner_first_match_cex :
    (sortByKey secKey [⟨some "UNLABELED", some 0, some 10⟩,
        ⟨some "TITLE", some 10, some 20⟩]).find? (secContains 5) =
      some ⟨some "UNLABELED", some 0, some 10⟩ ∧
    assignSectionName [⟨some "UNLABELED", some 0, some 10⟩,
        ⟨some "TITLE", some 10, some 20⟩] 5 25 = "TITLE" ∧
    "TITLE" ≠ "UNLABELED" := by
  refine ⟨by decide, by decide, by decide⟩

/-- C2 amended: the Section Assigner stops at the first successful step
provided the first containing range's label is not the `"UNLABELED"`
sentinel: if the first range (in sorted order) containing the sentence's
`abs_start` carries a label other than `"UNLABELED"` (and non-empty),
that label is returned and the midpoint / end-1 fallbacks cannot alter
the result; a first match labelled `"UNLABELED"` instead triggers the
fallbacks, because the same string is used as the no-match sentinel. -/
theorem section_assigner_first_match_amended (sections : List SecInfo)
    (absStart absEnd : Int) (r : SecInfo)
    (hfind : (sortByKey secKey sections).find? (secContains absStart) = some r)
    (hlab : labelOrUnlabeled r.sectionType ≠ "UNLABELED") :
    assignSectionName sections absStart absEnd = labelOrUnlabeled r.sectionType := by
  rw [assignSectionName]
  have h1 : findSectionForOffset (sortByKey secKey sections) absStart =
      labelOrUnlabeled r.sectionType := by
    rw [findSectionForOffset_eq_find, hfind]
  simp only [h1, if_neg hlab]
  rw [if_neg]
  intro hcon
  exact hlab hcon.1

/-- C2 amended witness: a concrete section list on which the first
containing range's label is returned directly. -/
theorem section_assigner_first_match_amended_witness :
    assignSectionName [⟨some "TITLE", some 0, some 10⟩] 5 8 =
      labelOrUnlabeled (some "TITLE") :=
  section_assigner_first_match_amended [⟨some "TITLE", some 0, some 10⟩] 5 8
    ⟨some "TITLE", some 0, some 10⟩ (by decide) (by decide)

/-- Section filtering configuration, as returned by
`load_section_config` (loader.py): the allow-list (already upper-cased
when case-insensitive) and the case-sensitivity flag. -/
structure SectionConfig where
  allowedSections : List String
  caseSensitive : Bool
deriving DecidableEq, Repr

/-- Shallow embedding of `is_section_allowed` (loader.py lines 81-106). -/
def isSectionAllowed (sectionType : Option String) (cfg : Option SectionConfig) :
    Bool :=
  match cfg with
  | none => true
  | some c =>
    match sectionType with
    | none => false
    | some s =>
      if s = "" then false
      else if c.caseSensitive then c.allowedSections.contains s
      else c.allowedSections.contains s.toUpper

/-- Shallow embedding of `normalize_section_name` (loader.py lines
109-133): missing/empty hints become `"UNLABELED"`, disallowed hints
become `"OTHER"`, allowed hints pass through. -/
def normalizeSectionName (sectionType : Option String) (cfg : Option SectionConfig) :
    String :=
  match sectionType with
  | none => "UNLABELED"
  | some s =>
    if s = "" then "UNLABELED"
    else
      match cfg with
      | none => s
      | some _ => if isSectionAllowed (some s) cfg then s else "OTHER"

theorem normalizeSectionName_ne_empty (sectionType : Option String)
    (cfg : Option SectionConfig) : normalizeSectionName sectionType cfg ≠ "" := by
  cases sectionType with
  | none =>
    show "UNLABELED" ≠ ""
    decide
  | some s =>
    rw [normalizeSectionName.eq_def]
    dsimp only
    by_cases hs : s = ""
    · rw [if_pos hs]; decide
    · rw [if_neg hs]
      cases cfg with
      | none => exact hs
      | some c =>
        dsimp only
        by_cases ha : isSectionAllowed (some s) (some c) = true
        · rw [if_pos ha]; exact hs
        · rw [if_neg ha]; decide

/-- A raw BioC passage as consumed by the assembly loop of
`load_bioc_document`: its text, its optional declared offset, and the
section hint already resolved from its infons. -/
structure RawPassage where
  text : List Char
  offset : Option Int
  sectionType : Option String
deriving DecidableEq, Repr

/-- A per-passage metadata record appended to `metadata_sections` in
`load_bioc_document` (loader.py lines 292-302). -/
structure PassageMeta where
  sectionType : String
  passageIndex : Nat
  start : Nat
  stop : Nat
  mlen : Nat
deriving DecidableEq, Repr

/-- The loop state of the assembly in `load_bioc_document`:
`full_text_parts`, `current_length`, and `metadata_sections`. -/
structure AsmState where
  parts : List (List Char)
  cursor : Nat
  recs : List PassageMeta
deriving DecidableEq, Repr

/-- One iteration of the passage-assembly loop of `load_bioc_document`
(loader.py lines 261-302): resolve a missing offset to the cursor, pad
with spaces on a gap, clamp on an overlap (a no-op for the recorded
start, which is always the cursor after padding), append the passage
text, and record the passage's metadata. -/
def asmStep (cfg : Option SectionConfig) (st : AsmState) (ip : Nat × RawPassage) :
    AsmState :=
  let p := ip.2
  let off : Int := match p.offset with | some o => o | none => (st.cursor : Int)
  let st1 : AsmState :=
    if (st.cursor : Int) < off then
      ⟨st.parts ++ [List.replicate (off - (st.cursor : Int)).toNat ' '],
       st.cursor + (off - (st.cursor : Int)).toNat, st.recs⟩
    else st
  let pStart := st1.cursor
  let st2 : AsmState :=
    if p.text = [] then st1
    else ⟨st1.parts ++ [p.text], st1.cursor + p.text.length, st1.recs⟩
  let pEnd := st2.cursor
  let ns := normalizeSectionName p.sectionType cfg
  if ns = "" then st2
  else ⟨st2.parts, st2.cursor,
    st2.recs ++ [⟨ns, ip.1, pStart, pEnd, pEnd - pStart⟩]⟩

/-- Sort key of the passage sort in `load_bioc_document` (lines
257-259): `p.offset if p.offset is not None else 0`. -/
def passKey (p : RawPassage) : Int := p.offset.getD 0

/-- Shallow embedding of the passage-assembly portion of
`load_bioc_document`: stable-sort the passages by declared offset (with
`None` as key 0), then run the assembly loop over the enumerated sorted
passages, returning the joined full text and the metadata records. -/
def assembleDoc (cfg : Option SectionConfig) (ps : List RawPassage) :
    List Char × List PassageMeta :=
  let final := ((sortByKey passKey ps).enum).foldl (asmStep cfg) ⟨[], 0, []⟩
  (final.parts.flatten, final.recs)

/-- The number of filler spaces inserted before a passage: positive
exactly when the resolved declared offset exceeds the cursor. -/
def asmPad (st : AsmState) (p : RawPassage) : Nat :=
  let off : Int := match p.offset with | some o => o | none => (st.cursor : Int)
  if (st.cursor : Int) < off then (off - (st.cursor : Int)).toNat else 0

theorem asmStep_spec (cfg : Option SectionConfig) (st : AsmState)
    (idx : Nat) (p : RawPassage) :
    (asmStep cfg st (idx, p)).parts.flatten =
      st.parts.flatten ++ List.replicate (asmPad st p) ' ' ++ p.text ∧
    (asmStep cfg st (idx, p)).cursor = st.cursor + asmPad st p + p.text.length ∧
    (asmStep cfg st (idx, p)).recs = st.recs ++
      [⟨normalizeSectionName p.sectionType cfg, idx, st.cursor + asmPad st p,
        st.cursor + asmPad st p + p.text.length, p.text.length⟩] := by
  have hns := normalizeSectionName_ne_empty p.sectionType cfg
  by_cases hoff : (st.cursor : Int) <
      (match p.offset with | some o => o | none => (st.cursor : Int))
  · by_cases htext : p.text = []
    · simp [asmStep, asmPad, hoff, htext, hns, List.flatten_append]
    · simp [asmStep, asmPad, hoff, htext, hns, List.flatten_append,
        Nat.add_sub_cancel_left, List.append_assoc]
  · by_cases htext : p.text = []
    · simp [asmStep, asmPad, hoff, htext, hns, List.flatten_append]
    · simp [asmStep, asmPad, hoff, htext, hns, List.flatten_append,
        Nat.add_sub_cancel_left, List.append_assoc]

/-- C4: in each assembly iteration the joined text is extended by
exactly the computed filler (declared_offset − cursor spaces on a gap,
none on an exact match or an overlap — so already-assembled text is
never truncated) followed by the passage text, the cursor advances
accordingly, and the appended metadata record carries
`(start, end) = (cursor before append, cursor after append)`; on the
spec's Scenario 1 the result is `"Title     Body"` with passage ranges
`(0,5)` and `(10,14)`. -/
theorem assembler_step_and_scenario :
    (∀ (cfg : Option SectionConfig) (st : AsmState) (idx : Nat) (p : RawPassage),
      (asmStep cfg st (idx, p)).parts.flatten =
        st.parts.flatten ++ List.replicate (asmPad st p) ' ' ++ p.text ∧
      asmPad st p =
        (if (st.cursor : Int) <
            (match p.offset with | some o => o | none => (st.cursor : Int)) then
          ((match p.offset with | some o => o | none => (st.cursor : Int)) -
            (st.cursor : Int)).toNat
        else 0) ∧
      (asmStep cfg st (idx, p)).cursor = st.cursor + asmPad st p + p.text.length ∧
      ∃ r, (asmStep cfg st (idx, p)).recs = st.recs ++ [r] ∧
        r.start = st.cursor + asmPad st p ∧
        r.stop = st.cursor + asmPad st p + p.text.length) ∧
    assembleDoc none [⟨"Title".toList, some 0, none⟩, ⟨"Body".toList, some 10, none⟩] =
      ("Title     Body".toList,
        [⟨"UNLABELED", 0, 0, 5, 5⟩, ⟨"UNLABELED", 1, 10, 14, 4⟩]) := by
  constructor
  · intro cfg st idx p
    rcases asmStep_spec cfg st idx p with ⟨h1, h2, h3⟩
    exact ⟨h1, rfl, h2, ⟨_, h3, rfl, rfl⟩⟩
  · decide

/-- C5 counterexample: with passages `[("A", offset 5), ("B", offset
missing)]`, the sort assigns the missing offset the key 0, placing "B"
ahead of "A" even though "A" precedes it in input order with a larger
declared offset; assembly therefore yields `"B    A"`, with "B" at
position 0 — not at the cursor reached after "A" (which would be 6). -/
theorem assembler_sort_missing_offset_cex :
    sortByKey passKey [⟨['A'], some 5, none⟩, ⟨['B'], none, none⟩] =
      [⟨['B'], none, none⟩, ⟨['A'], some 5, none⟩] ∧
    assembleDoc none [⟨['A'], some 5, none⟩, ⟨['B'], none, none⟩] =
      ("B    A".toList,
        [⟨"UNLABELED", 0, 0, 1, 1⟩, ⟨"UNLABELED", 1, 5, 6, 1⟩]) ∧
    (0 : Nat) ≠ 6 := by
  refine ⟨by decide, by decide, by decide⟩

/-- C5 amended: the Document Assembler sorts the passages by
`declared_offset` with a missing offset given the sort key 0 — so the
sorted list is non-decreasing in that key and a missing-offset passage
is placed before every passage with a positive declared offset, not at
its input position; during assembly a missing offset is then treated as
"continue from the current cursor": no filler is inserted and the
passage is recorded at the cursor the (sorted) traversal has reached. -/
theorem assembler_sort_missing_offset_amended :
    (∀ ps : List RawPassage,
      (sortByKey passKey ps).Pairwise (fun a b => passKey a ≤ passKey b)) ∧
    (∀ (cfg : Option SectionConfig) (st : AsmState) (idx : Nat) (p : RawPassage),
      p.offset = none →
      (asmStep cfg st (idx, p)).parts.flatten = st.parts.flatten ++ p.text ∧
      (asmStep cfg st (idx, p)).cursor = st.cursor + p.text.length ∧
      ∃ r, (asmStep cfg st (idx, p)).recs = st.recs ++ [r] ∧
        r.start = st.cursor ∧ r.stop = st.cursor + p.text.length) := by
  constructor
  · intro ps
    exact pairwise_sortByKey passKey ps
  · intro cfg st idx p hnone
    rcases asmStep_spec cfg st idx p with ⟨h1, h2, h3⟩
    have hpad : asmPad st p = 0 := by
      rw [asmPad, hnone]
      simp
    rw [hpad] at h1 h2 h3
    refine ⟨by simpa using h1, by simpa using h2, ⟨_, h3, by simp, by simp⟩⟩

/-- C5 amended witness: the amended statement applied to a concrete
passage list and a concrete missing-offset step. -/
theorem assembler_sort_missing_offset_amended_witness :
    (sortByKey passKey [⟨['A'], some 5, none⟩, ⟨['B'], none, none⟩]).Pairwise
      (fun a b => passKey a ≤ passKey b) ∧
    (asmStep none ⟨[], 0, []⟩ (0, ⟨['B'], none, none⟩)).cursor = 0 + 1 := by
  constructor
  · exact assembler_sort_missing_offset_amended.1 _
  · have h := assembler_sort_missing_offset_amended.2 none ⟨[], 0, []⟩ 0
      ⟨['B'], none, none⟩ rfl
    exact h.2.1

theorem listSlice_append (l ext : List Char) (s e : Nat) (he : e ≤ l.length) :
    listSlice (l ++ ext) s e = listSlice l s e := by
  rw [listSlice, listSlice]
  by_cases hs : s ≤ l.length
  · rw [List.drop_append_of_le_length hs]
    have h : e - s ≤ (l.drop s).length := by
      rw [List.length_drop]; omega
    rw [List.take_append_of_le_length h]
  · have h0 : e - s = 0 := by omega
    rw [h0]
    simp

theorem listSlice_exact (pre txt : List Char) :
    listSlice (pre ++ txt) pre.length (pre.length + txt.length) = txt := by
  rw [listSlice, List.drop_left, Nat.add_sub_cancel_left, List.take_length]

theorem asmFold_main (cfg : Option SectionConfig) :
    ∀ (l : List (Nat × RawPassage)) (st : AsmState),
      st.parts.flatten.length = st.cursor →
      (∀ r ∈ st.recs, r.stop ≤ st.cursor) →
      (l.foldl (asmStep cfg) st).parts.flatten.length =
          (l.foldl (asmStep cfg) st).cursor ∧
      (∀ r ∈ (l.foldl (asmStep cfg) st).recs,
          r.stop ≤ (l.foldl (asmStep cfg) st).cursor) ∧
      (∃ ext, (l.foldl (asmStep cfg) st).parts.flatten =
          st.parts.flatten ++ ext) ∧
      (∃ newRecs, (l.foldl (asmStep cfg) st).recs = st.recs ++ newRecs ∧
        newRecs.length = l.length ∧
        (∀ i (h1 : i < newRecs.length) (h2 : i < l.length),
          newRecs[i].passageIndex = l[i].1 ∧
          newRecs[i].mlen = newRecs[i].stop - newRecs[i].start ∧
          newRecs[i].start ≤ newRecs[i].stop ∧
          newRecs[i].stop ≤ (l.foldl (asmStep cfg) st).parts.flatten.length ∧
          newRecs[i].stop - newRecs[i].start = l[i].2.text.length ∧
          listSlice (l.foldl (asmStep cfg) st).parts.flatten
            newRecs[i].start newRecs[i].stop = l[i].2.text)) ∧
      (∀ j (hj : j < (l.foldl (asmStep cfg) st).parts.flatten.length),
        st.cursor ≤ j →
        (∀ r ∈ (l.foldl (asmStep cfg) st).recs, j < r.start ∨ r.stop ≤ j) →
        (l.foldl (asmStep cfg) st).parts.flatten[j] = ' ') := by
  intro l
  induction l with
  | nil =>
    intro st hlen hrecs
    simp only [List.foldl_nil]
    refine ⟨hlen, hrecs, ⟨[], by simp⟩, ⟨[], by simp, rfl, ?_⟩, ?_⟩
    · intro i h1 h2
      exact absurd h2 (Nat.not_lt_zero i)
    · intro j hj hge _
      rw [hlen] at hj
      omega
  | cons hd rest ih =>
    intro st hlen hrecs
    obtain ⟨idx, p⟩ := hd
    rcases asmStep_spec cfg st idx p with ⟨hflat, hcur, hrec1⟩
    rw [List.foldl_cons]
    set pad := asmPad st p with hpaddef
    set st1 := asmStep cfg st (idx, p) with hst1
    have hlen1 : st1.parts.flatten.length = st1.cursor := by
      rw [hflat, hcur]
      simp only [List.length_append, List.length_replicate, hlen]
    have hrecs1 : ∀ r ∈ st1.recs, r.stop ≤ st1.cursor := by
      rw [hrec1, hcur]
      intro r hr
      rcases List.mem_append.mp hr with hr1 | hr2
      · have := hrecs r hr1; omega
      · rw [List.mem_singleton] at hr2
        subst hr2
        exact le_refl _
    rcases ih st1 hlen1 hrecs1 with
      ⟨ha, hb, ⟨ext, hext⟩, ⟨newR, hnewR, hnewRlen, hnewRprop⟩, hsp⟩
    have hfinrecs : (rest.foldl (asmStep cfg) st1).recs =
        st.recs ++ (⟨normalizeSectionName p.sectionType cfg, idx,
          st.cursor + pad, st.cursor + pad + p.text.length,
          p.text.length⟩ :: newR) := by
      rw [hnewR, hrec1, List.append_assoc]
      rfl
    have hfinflat : (rest.foldl (asmStep cfg) st1).parts.flatten =
        (st.parts.flatten ++ List.replicate pad ' ') ++ (p.text ++ ext) := by
      rw [hext, hflat]
      simp [List.append_assoc]
    have hprelen : (st.parts.flatten ++ List.replicate pad ' ').length =
        st.cursor + pad := by
      simp [hlen]
    refine ⟨ha, hb, ?_, ?_, ?_⟩
    · refine ⟨List.replicate pad ' ' ++ (p.text ++ ext), ?_⟩
      rw [hfinflat]
      simp [List.append_assoc]
    · refine ⟨⟨normalizeSectionName p.sectionType cfg, idx,
        st.cursor + pad, st.cursor + pad + p.text.length,
        p.text.length⟩ :: newR, hfinrecs, by simp [hnewRlen], ?_⟩
      intro i h1 h2
      cases i with
      | zero =>
        simp only [List.getElem_cons_zero]
        refine ⟨by simp, by omega, by omega, ?_, by omega, ?_⟩
        · rw [hext]
          rw [List.length_append, hlen1, hcur]
          omega
        · have hstop : st.cursor + pad + p.text.length ≤
              st1.parts.flatten.length := by
            rw [hlen1, hcur]
          rw [hext, listSlice_append _ _ _ _ hstop]
          have hflat1 : st1.parts.flatten =
              (st.parts.flatten ++ List.replicate pad ' ') ++ p.text := by
            rw [hflat]
          rw [hflat1]
          have := listSlice_exact (st.parts.flatten ++ List.replicate pad ' ') p.text
          rw [hprelen] at this
          exact this
      | succ k =>
        simp only [List.getElem_cons_succ]
        have hk1 : k < newR.length := by
          simp at h1
          omega
        have hk2 : k < rest.length := by
          simp at h2
          omega
        exact hnewRprop k hk1 hk2
    · intro j hj hge havoid
      by_cases hj1 : st1.cursor ≤ j
      · exact hsp j hj hj1 havoid
      · push_neg at hj1
        have hr1mem : (⟨normalizeSectionName p.sectionType cfg, idx,
            st.cursor + pad, st.cursor + pad + p.text.length,
            p.text.length⟩ : PassageMeta) ∈ (rest.foldl (asmStep cfg) st1).recs := by
          rw [hfinrecs]
          simp
        rcases havoid _ hr1mem with hlt | hge1
        · simp only at hlt
          have hjpre : j < (st.parts.flatten ++ List.replicate pad ' ').length := by
            rw [hprelen]; exact hlt
          have hjge : st.parts.flatten.length ≤ j := by
            rw [hlen]; exact hge
          simp only [hfinflat]
          rw [List.getElem_append_left hjpre, List.getElem_append_right hjge]
          exact List.getElem_replicate ' ' _
        · simp only at hge1
          rw [hcur] at hj1
          omega

/-- C10: for every passage list, the assembled text and the per-passage
offset map produced by the Document Assembler are mutually consistent:
each recorded range satisfies `length = end - start`, slicing the final
merged text with the recorded `(start, end)` yields exactly the
corresponding sorted passage's text, and every character of the merged
text not covered by any recorded range is a filler space. -/
theorem assembly_offset_map_consistent (cfg : Option SectionConfig)
    (ps : List RawPassage) :
    (assembleDoc cfg ps).2.length = (sortByKey passKey ps).length ∧
    (∀ i (h1 : i < (assembleDoc cfg ps).2.length)
        (h2 : i < (sortByKey passKey ps).length),
      (assembleDoc cfg ps).2[i].mlen =
        (assembleDoc cfg ps).2[i].stop - (assembleDoc cfg ps).2[i].start ∧
      (assembleDoc cfg ps).2[i].start ≤ (assembleDoc cfg ps).2[i].stop ∧
      (assembleDoc cfg ps).2[i].stop ≤ (assembleDoc cfg ps).1.length ∧
      (assembleDoc cfg ps).2[i].stop - (assembleDoc cfg ps).2[i].start =
        (sortByKey passKey ps)[i].text.length ∧
      listSlice (assembleDoc cfg ps).1 (assembleDoc cfg ps).2[i].start
        (assembleDoc cfg ps).2[i].stop = (sortByKey passKey ps)[i].text) ∧
    (∀ j (hj : j < (assembleDoc cfg ps).1.length),
      (∀ r ∈ (assembleDoc cfg ps).2, j < r.start ∨ r.stop ≤ j) →
      (assembleDoc cfg ps).1[j] = ' ') := by
  have h := asmFold_main cfg (sortByKey passKey ps).enum ⟨[], 0, []⟩ rfl
    (by intro r hr; simp at hr)
  rcases h with ⟨_, _, _, ⟨newR, hnewR, hnewRlen, hprop⟩, hsp⟩
  have hrecs : (assembleDoc cfg ps).2 = newR := by
    rw [assembleDoc]
    dsimp only
    rw [hnewR]
    simp
  have htxt : (assembleDoc cfg ps).1 =
      ((sortByKey passKey ps).enum.foldl (asmStep cfg)
        ⟨[], 0, []⟩).parts.flatten := rfl
  refine ⟨?_, ?_, ?_⟩
  · rw [hrecs, hnewRlen, List.enum_length]
  · intro i h1 h2
    have h1' : i < newR.length := by rw [← hrecs]; exact h1
    have h2' : i < (sortByKey passKey ps).enum.length := by
      rw [List.enum_length]; exact h2
    have hp := hprop i h1' h2'
    rw [List.getElem_enum] at hp
    rw [htxt]
    simp only [hrecs]
    exact ⟨hp.2.1, hp.2.2.1, hp.2.2.2.1, hp.2.2.2.2.1, hp.2.2.2.2.2⟩
  · intro j hj havoid
    have hj' : j < ((sortByKey passKey ps).enum.foldl (asmStep cfg)
        ⟨[], 0, []⟩).parts.flatten.length := by rw [← htxt]; exact hj
    have havoid' : ∀ r ∈ ((sortByKey passKey ps).enum.foldl (asmStep cfg)
        ⟨[], 0, []⟩).recs, j < r.start ∨ r.stop ≤ j := by
      intro r hr
      apply havoid
      rw [hrecs]
      rw [hnewR] at hr
      simpa using hr
    have := hsp j hj' (Nat.zero_le j) havoid'
    simp only [htxt]
    exact this

/-- C10 witness: on a concrete single-passage document with a gap, the
recorded range slices the merged text back to the passage text. -/
theorem assembly_offset_map_consistent_witness :
    listSlice (assembleDoc none [⟨"Hi".toList, some 3, none⟩]).1 3 5 =
      "Hi".toList := by
  have h := (assembly_offset_map_consistent none
    [⟨"Hi".toList, some 3, none⟩]).2.1 0 (by decide) (by decide)
  exact h.2.2.2.2

/-- A merged section range as built by `merge_consecutive_sections`
(loader.py lines 136-182). -/
structure SectionRange where
  sectionType : String
  start : Nat
  stop : Nat
  passageIndices : List Nat
deriving DecidableEq, Repr

/-- One iteration of the `merge_consecutive_sections` loop: start the
first range, extend the current range on an equal hint, or emit the
current range and start a new one on a differing hint. -/
def mergeStep (acc : List SectionRange × Option SectionRange) (p : PassageMeta) :
    List SectionRange × Option SectionRange :=
  match acc.2 with
  | none => (acc.1, some ⟨p.sectionType, p.start, p.stop, [p.passageIndex]⟩)
  | some cur =>
    if cur.sectionType = p.sectionType then
      (acc.1, some ⟨cur.sectionType, cur.start, p.stop,
        cur.passageIndices ++ [p.passageIndex]⟩)
    else
      (acc.1 ++ [cur], some ⟨p.sectionType, p.start, p.stop, [p.passageIndex]⟩)

/-- Append the pending current range, as the epilogue of
`merge_consecutive_sections` does. -/
def finishMerge (r : List SectionRange × Option SectionRange) : List SectionRange :=
  match r.2 with
  | none => r.1
  | some cur => r.1 ++ [cur]

/-- Shallow embedding of `merge_consecutive_sections` (loader.py lines
136-182): a linear scan with a mutable current section. -/
def merge_consecutive_sections (ps : List PassageMeta) : List SectionRange :=
  if ps = [] then []
  else finishMerge (ps.foldl mergeStep ([], none))

/-- Reference Section Boundary Tracker from the spec's words: the first
passage always starts a range; a passage whose hint equals the current
range's label extends its end and appends its index; a differing hint
closes the current range and starts a new one. -/
def specMergeGo (cur : SectionRange) : List PassageMeta → List SectionRange
  | [] => [cur]
  | p :: rest =>
    if cur.sectionType = p.sectionType then
      specMergeGo ⟨cur.sectionType, cur.start, p.stop,
        cur.passageIndices ++ [p.passageIndex]⟩ rest
    else cur :: specMergeGo ⟨p.sectionType, p.start, p.stop, [p.passageIndex]⟩ rest

/-- Reference form of the whole merge. -/
def specMergeSections : List PassageMeta → List SectionRange
  | [] => []
  | p :: rest => specMergeGo ⟨p.sectionType, p.start, p.stop, [p.passageIndex]⟩ rest

theorem mergeFold_eq_go :
    ∀ (l : List PassageMeta) (acc : List SectionRange) (cur : SectionRange),
      finishMerge (l.foldl mergeStep (acc, some cur)) = acc ++ specMergeGo cur l := by
  intro l
  induction l with
  | nil =>
    intro acc cur
    rfl
  | cons p rest ih =>
    intro acc cur
    rw [List.foldl_cons, specMergeGo]
    by_cases h : cur.sectionType = p.sectionType
    · rw [if_pos h]
      have hstep : mergeStep (acc, some cur) p =
          (acc, some ⟨cur.sectionType, cur.start, p.stop,
            cur.passageIndices ++ [p.passageIndex]⟩) := by
        rw [mergeStep]
        dsimp only
        rw [if_pos h]
      rw [hstep, ih]
    · rw [if_neg h]
      have hstep : mergeStep (acc, some cur) p =
          (acc ++ [cur], some ⟨p.sectionType, p.start, p.stop,
            [p.passageIndex]⟩) := by
        rw [mergeStep]
        dsimp only
        rw [if_neg h]
      rw [hstep, ih]
      simp

/-- C8: the Section Boundary Tracker equals the reference adjacency
merge (a new range starts exactly when the hint differs from the
immediately preceding passage's hint; equal-hint passages extend the
current range and append their index), and two same-labeled runs
separated by a differently-labeled passage yield two distinct
`SectionRange` entries while adjacent equal hints are merged into one. -/
theorem section_tracker_adjacency :
    (∀ ps : List PassageMeta,
      merge_consecutive_sections ps = specMergeSections ps) ∧
    merge_consecutive_sections
        [⟨"METHODS", 0, 0, 5, 5⟩, ⟨"TITLE", 1, 5, 8, 3⟩,
          ⟨"METHODS", 2, 8, 12, 4⟩] =
      [⟨"METHODS", 0, 5, [0]⟩, ⟨"TITLE", 5, 8, [1]⟩,
        ⟨"METHODS", 8, 12, [2]⟩] ∧
    merge_consecutive_sections
        [⟨"METHODS", 0, 0, 5, 5⟩, ⟨"METHODS", 1, 5, 9, 4⟩] =
      [⟨"METHODS", 0, 9, [0, 1]⟩] := by
  refine ⟨?_, by decide, by decide⟩
  intro ps
  cases ps with
  | nil => rfl
  | cons p rest =>
    rw [merge_consecutive_sections, if_neg (by simp), List.foldl_cons]
    have hstep : mergeStep ([], none) p =
        ([], some ⟨p.sectionType, p.start, p.stop, [p.passageIndex]⟩) := rfl
    rw [hstep, specMergeSections, mergeFold_eq_go]
    simp

/-- The character class kept verbatim by `_sanitize_filename`
(processor.py line 659): lower-case letters, digits, underscore,
hyphen. -/
def allowedFChar (c : Char) : Bool :=
  decide (('a' ≤ c ∧ c ≤ 'z') ∨ ('0' ≤ c ∧ c ≤ '9') ∨ c = '_' ∨ c = '-')

/-- Replace every maximal run of disallowed characters by a single
underscore, as the regex substitution in `_sanitize_filename` does;
the flag records whether the previous character was disallowed. -/
def collapseDisallowed : Bool → List Char → List Char
  | _, [] => []
  | inRun, c :: cs =>
    if allowedFChar c then c :: collapseDisallowed false cs
    else if inRun then collapseDisallowed true cs
    else '_' :: collapseDisallowed true cs

/-- Python's `.strip("_")`. -/
def stripUnderscores (l : List Char) : List Char :=
  ((l.dropWhile (fun c => c == '_')).reverse.dropWhile (fun c => c == '_')).reverse

/-- Shallow embedding of `BiocProcessor._sanitize_filename` (processor.py
lines 648-662): lower-case, collapse disallowed runs to `_`, strip
leading/trailing underscores, and fall back to `"unknown"`. -/
def sanitizeFilename (s : String) : List Char :=
  let cleaned := stripUnderscores (collapseDisallowed false (s.toList.map Char.toLower))
  if cleaned = [] then "unknown".toList else cleaned

/-- The filename stem written by `_save_section_file` (processor.py line
578): `{doc_id_safe}_{section_safe}` (the `.json` suffix is dropped by
the scan before parsing). -/
def saveStem (docId sectionName : String) : List Char :=
  sanitizeFilename docId ++ '_' :: sanitizeFilename sectionName

/-- Python's `stem.rsplit("_", 1)[0]`: everything before the last
underscore, or the whole stem when it contains none. -/
def beforeLastUnderscore (stem : List Char) : List Char :=
  if stem.contains '_' then
    ((stem.reverse.dropWhile (fun c => c != '_')).tail).reverse
  else stem

/-- The per-file document-id recovery of `_get_existing_doc_ids`
(processor.py lines 538-551): compare the extracted prefix against each
collection id, both sanitized and raw, returning the first match. -/
def recoverDocId (collectionIds : List String) (stem : List Char) : Option String :=
  collectionIds.find? (fun d =>
    beforeLastUnderscore stem == sanitizeFilename d ||
    beforeLastUnderscore stem == d.toList)

/-- Shallow embedding of `_get_existing_doc_ids` over the stems of the
JSON files found in the output directory. -/
def getExistingDocIds (collectionIds : List String) (stems : List (List Char)) :
    List String :=
  stems.filterMap (recoverDocId collectionIds)

/-- The resume filter of `process_and_save` (processor.py lines
427-433): skip every document whose id was recovered from an existing
file. -/
def resumeIdsToProcess (collectionIds : List String) (stems : List (List Char)) :
    List String :=
  collectionIds.filter (fun d =>
    !((getExistingDocIds collectionIds stems).contains d))

/-- C3 (code bug): the naming is not invertible when the sanitized
section name itself contains an underscore.  For document id
`"35215501"` and section `"results_discussion"` (the very example named
in the scan's own comment), the written stem is
`35215501_results_discussion`, `rsplit("_", 1)` extracts
`35215501_results`, no collection id matches, so the resume scan
returns no existing id and the persisted document is processed again
instead of skipped; a single-word section such as `"title"` is
recovered correctly. -/
theorem resume_scan_underscore_section_bug :
    saveStem "35215501" "results_discussion" =
      "35215501_results_discussion".toList ∧
    beforeLastUnderscore (saveStem "35215501" "results_discussion") =
      "35215501_results".toList ∧
    getExistingDocIds ["35215501"] [saveStem "35215501" "results_discussion"] = [] ∧
    resumeIdsToProcess ["35215501"] [saveStem "35215501" "results_discussion"] =
      ["35215501"] ∧
    getExistingDocIds ["35215501"] ["35215501_title".toList] = ["35215501"] := by
  refine ⟨by decide, by decide, by decide, by decide, by decide⟩

/-- The outcome of one batch run of `BiocProcessor.process_and_save`:
the saved file paths, the processed/failed counters, and the sequence
of progress-callback invocations `(doc_id, status)`. -/
structure BatchResult where
  savedFiles : List String
  processedCount : Nat
  failedCount : Nat
  statuses : List (String × String)
deriving DecidableEq, Repr

/-- One iteration of the `process_and_save` loop (processor.py lines
453-500): convert and save one document inside a try/except — a success
appends its files and reports "processed", any exception is swallowed,
counted, and reported as "failed". -/
def batchStep (work : String → Except String (List String))
    (r : BatchResult) (d : String) : BatchResult :=
  match work d with
  | Except.ok files =>
    ⟨r.savedFiles ++ files, r.processedCount + 1, r.failedCount,
      r.statuses ++ [(d, "processed")]⟩
  | Except.error _ =>
    ⟨r.savedFiles, r.processedCount, r.failedCount + 1,
      r.statuses ++ [(d, "failed")]⟩

/-- Shallow embedding of the batch loop of `process_and_save`, with the
per-document conversion+save abstracted as the fallible `work`
function.  The driver itself is total: no exception escapes the loop. -/
def process_and_save (work : String → Except String (List String))
    (ids : List String) : BatchResult :=
  ids.foldl (batchStep work) ⟨[], 0, 0, []⟩

/-- Files produced by one document, empty on failure. -/
def workFiles (work : String → Except String (List String)) (d : String) :
    List String :=
  match work d with
  | Except.ok files => files
  | Except.error _ => []

/-- Whether one document converts without raising. -/
def workOk (work : String → Except String (List String)) (d : String) : Bool :=
  match work d with
  | Except.ok _ => true
  | Except.error _ => false

/-- The status reported to the progress callback for one document. -/
def workStatus (work : String → Except String (List String)) (d : String) :
    String :=
  match work d with
  | Except.ok _ => "processed"
  | Except.error _ => "failed"

theorem batchFold_spec (work : String → Except String (List String)) :
    ∀ (ids : List String) (r0 : BatchResult),
      ids.foldl (batchStep work) r0 =
        ⟨r0.savedFiles ++ (ids.map (workFiles work)).flatten,
         r0.processedCount + ids.countP (workOk work),
         r0.failedCount + ids.countP (fun d => !(workOk work d)),
         r0.statuses ++ ids.map (fun d => (d, workStatus work d))⟩ := by
  intro ids
  induction ids with
  | nil =>
    intro r0
    simp [List.foldl_nil]
  | cons d rest ih =>
    intro r0
    rw [List.foldl_cons, ih]
    cases hw : work d with
    | ok files =>
      simp [batchStep, hw, workFiles, workOk, workStatus, List.countP_cons,
        List.append_assoc]
      omega
    | error e =>
      simp [batchStep, hw, workFiles, workOk, workStatus, List.countP_cons,
        List.append_assoc]
      omega

/-- C9: a failing document in batch mode is isolated — for every
collection and every per-document work function the driver is a total
function whose result records exactly one "failed" callback per failing
document and one "processed" callback per succeeding document, in
order; the failure count equals the number of failing documents, and
the returned file list is exactly the concatenation of the files of the
succeeding documents, regardless of where failures occur. -/
theorem batch_driver_failure_isolation
    (work : String → Except String (List String)) (ids : List String) :
    (process_and_save work ids).savedFiles =
      (ids.map (workFiles work)).flatten ∧
    (process_and_save work ids).processedCount = ids.countP (workOk work) ∧
    (process_and_save work ids).failedCount =
      ids.countP (fun d => !(workOk work d)) ∧
    (process_and_save work ids).statuses =
      ids.map (fun d => (d, workStatus work d)) := by
  rw [process_and_save, batchFold_spec work ids]
  exact ⟨by simp, by simp, by simp, by simp⟩

end BiocConv
